import Mathlib

/-!
Verification of the DOM-interaction core of the plawser repository
(src/WebUtils.js): the parent resolver, the exclusive-selection
controller, the fade animation engine, the progressive children
fade-in, and the slideshow paginator.

All definitions are shallow embeddings of the JavaScript source.
JavaScript numbers used for opacity and delays are modelled as exact
rationals; machine indices are Int (the source uses the sentinel -1)
or Nat. Fallible DOM accesses (indexing an array at -1 and touching
a property of the resulting undefined value) are modelled with
Option, where none denotes a thrown TypeError.
-/

namespace Plawser

/-! ## ParentResolver (src/WebUtils.js, whichIsParent, lines 15-22)

The source iterates i over the candidate array and returns the first
index whose element has possibleParents[i].contains(child) true,
returning -1 when the loop completes without a match. The containment
test is supplied by the host environment (the DOM contains method),
so it is a parameter here. The loop only reads; it mutates nothing,
which the embedding reflects by being a pure function. -/

def whichIsParentAux {α : Type} (ct : α → α → Bool) (child : α) :
    Nat → List α → Int
  | _, [] => -1
  | i, p :: ps =>
      if ct p child then (i : Int) else whichIsParentAux ct child (i + 1) ps

/-- Shallow embedding of WebUtils.whichIsParent. -/
def whichIsParent {α : Type} (ct : α → α → Bool) (child : α)
    (possibleParents : List α) : Int :=
  whichIsParentAux ct child 0 possibleParents

/-! ## SelectableBlockController
(src/WebUtils.js, prepareElsAsSelectableBlocks, lines 52-136)

State: the border color of each element (a list of strings) and the
mutable activeIndex, initialized to -1. Handlers receive the index
already resolved by whichIsParent over the element list; -1 denotes an
unresolved event. Indexing the element array at -1 and then touching
style on the resulting undefined value throws in JavaScript, which the
embedding models as none. Each handler runs to completion atomically
(the host event loop is single threaded), so observable states are the
states between handler runs. The onSelect callback is recorded as the
list of argument values passed to it; the source assigns activeIndex
and then calls onSelect(activeIndex), so the recorded argument is read
from the already-updated field, which is how the embedding captures
that a reentrant currentSelection() inside onSelect sees the new
selection. -/

structure SBCfg where
  defaultColor : String
  mouseOverColor : String
  selectedColor : String
deriving DecidableEq

structure SBState where
  border : List String
  activeIndex : Int
deriving DecidableEq

inductive SBEvent where
  | enter (idx : Int)
  | leave (idx : Int)
  | click (idx : Int)
deriving DecidableEq

/-- The resolver result carried by an event. -/
def SBEvent.idx : SBEvent → Int
  | .enter i => i
  | .leave i => i
  | .click i => i

/-- Assign els[i].style.borderColor = c; none models the TypeError a
JavaScript out-of-range access raises when the undefined element's
style is touched. -/
def setBorder (b : List String) (i : Int) (c : String) : Option (List String) :=
  if 0 ≤ i ∧ i.toNat < b.length then some (b.set i.toNat c) else none

/-- Initial state after prepareElsAsSelectableBlocks wires n elements:
every border is defaultColor (line 92) and activeIndex is -1 (line 78). -/
def sbInit (n : Nat) (cfg : SBCfg) : SBState :=
  ⟨List.replicate n cfg.defaultColor, -1⟩

/-- One handler run: onmouseenter (lines 93-100), onmouseleave
(lines 101-108), onclick (lines 109-130). Returns the new state and
the arguments passed to onSelect during the run. -/
def sbStep (cfg : SBCfg) (s : SBState) (e : SBEvent) :
    Option (SBState × List Int) :=
  match e with
  | .enter idx =>
      if s.activeIndex ≠ idx then
        (setBorder s.border idx cfg.mouseOverColor).map
          (fun b => (⟨b, s.activeIndex⟩, []))
      else some (s, [])
  | .leave idx =>
      if s.activeIndex ≠ idx then
        (setBorder s.border idx cfg.defaultColor).map
          (fun b => (⟨b, s.activeIndex⟩, []))
      else some (s, [])
  | .click idx =>
      match (if s.activeIndex ≠ -1 then
              setBorder s.border s.activeIndex cfg.defaultColor
             else some s.border) with
      | none => none
      | some b1 =>
        match setBorder b1 idx cfg.selectedColor with
        | none => none
        | some b2 =>
          let s' : SBState := ⟨b2, idx⟩
          if s.activeIndex ≠ idx then some (s', [s'.activeIndex])
          else some (s', [])

/-- Run a sequence of handler invocations, discarding onSelect records. -/
def sbRun (cfg : SBCfg) (s : SBState) : List SBEvent → Option SBState
  | [] => some s
  | e :: es =>
      match sbStep cfg s e with
      | none => none
      | some (s', _) => sbRun cfg s' es

/-- The source defaults: black, orange, red (lines 53-55). -/
def sbCfgDefault : SBCfg := ⟨"black", "orange", "red"⟩

/-- Invariant of the controller for a fixed element count n, assuming
selectedColor differs from the two other configured colors. -/
def SBInv (cfg : SBCfg) (n : Nat) (s : SBState) : Prop :=
  s.border.length = n ∧
  (s.activeIndex = -1 ∨
    (0 ≤ s.activeIndex ∧ s.activeIndex.toNat < n ∧
      s.border.getD s.activeIndex.toNat "" = cfg.selectedColor)) ∧
  ∀ j, j < n → (j : Int) ≠ s.activeIndex →
    s.border.getD j "" ≠ cfg.selectedColor

/-- C1 counterexample: the claim quantifies over every controller, but a
controller configured with defaultColor equal to selectedColor violates
it: after prepareElsAsSelectableBlocks over two elements and one resolved
click on element 0, both elements carry selectedColor. -/
def sbCfgDegenerate : SBCfg := ⟨"red", "orange", "red"⟩

/-! ## FadeAnimator
(src/WebUtils.js, fadeIn lines 311-332, fadeOut lines 343-363)

A fade is a self-rescheduling chain of timer continuations. Each call
reads fadeTimeStep from its options argument, defaulting to 80, and
schedules one tick after that delay; the tick either clamps and runs
the callback, or commits the new opacity and recurses. The recursive
calls on lines 329 and 360 pass no options argument, so every tick
after the first is scheduled with the default 80 regardless of the
configured value; the embedding reproduces this by recursing with the
literal 80. Opacity arithmetic is modelled with exact rationals (the
source uses JavaScript doubles, whose rounding the numerical claim C7
is about; the delay schedule modelled here does not depend on it).
fadeInDelays o first is the list of delays of all scheduled ticks of a
fadeIn whose element currently has opacity o, where first is the
fadeTimeStep resolved for the initial call. -/

def fadeInDelays (o : ℚ) (first : ℚ) : List ℚ :=
  if 1 < o + 1 / 10 then [first]
  else first :: fadeInDelays (o + 1 / 10) 80
termination_by (⌈(1 - o) * 10⌉).toNat
decreasing_by
  rename_i h
  have h2 : (1 : ℚ) ≤ (1 - o) * 10 := by
    linarith [le_of_not_lt h]
  have h3 : (1 : ℤ) ≤ ⌈(1 - o) * 10⌉ := by
    calc (1 : ℤ) = ⌈(1 : ℚ)⌉ := by simp
    _ ≤ ⌈(1 - o) * 10⌉ := Int.ceil_mono h2
  have heq : (1 - (o + 1 / 10)) * 10 = (1 - o) * 10 - 1 := by ring
  have h4 : ⌈(1 - (o + 1 / 10)) * 10⌉ = ⌈(1 - o) * 10⌉ - 1 := by
    rw [heq]
    exact Int.ceil_sub_one _
  simp only [h4]
  omega

/-- Delay schedule of fadeOut, symmetric to fadeInDelays. -/
def fadeOutDelays (o : ℚ) (first : ℚ) : List ℚ :=
  if o - 1 / 10 < 0 then [first]
  else first :: fadeOutDelays (o - 1 / 10) 80
termination_by (⌈o * 10⌉).toNat
decreasing_by
  rename_i h
  have h2 : (1 : ℚ) ≤ o * 10 := by
    linarith [le_of_not_lt h]
  have h3 : (1 : ℤ) ≤ ⌈o * 10⌉ := by
    calc (1 : ℤ) = ⌈(1 : ℚ)⌉ := by simp
    _ ≤ ⌈o * 10⌉ := Int.ceil_mono h2
  have heq : (o - 1 / 10) * 10 = o * 10 - 1 := by ring
  have h4 : ⌈(o - 1 / 10) * 10⌉ = ⌈o * 10⌉ - 1 := by
    rw [heq]
    exact Int.ceil_sub_one _
  simp only [h4]
  omega

/-! ## Progressive children fade-in
(src/WebUtils.js, fadeInChildrenProgressively, lines 371-394)

The driver fadeInRecursive(i) checks i against the child count: at or
past the end it runs the callback and stops; otherwise it starts
fadeIn on child i with a completion that schedules fadeInRecursive(i+1)
after timeoutBetweenTextBlocks. The whole execution is one linear chain
of timer continuations, which the embedding records as an event trace:
one fadeTick event per scheduled fade tick (fadeIn is called with no
options, so every tick has the default delay 80; line 317 initializes
an unset opacity to 1.0, modelled by startOpacity), one interPause
event per scheduled inter-child timeout, and one callbackFired event
per invocation of the overall callback. -/

inductive PEvent where
  | fadeTick (child : Nat) (delay : ℚ)
  | interPause (delay : ℚ)
  | callbackFired
deriving DecidableEq

/-- Opacity a fade starts from: line 317 initializes an unset opacity
to 1.0. -/
def startOpacity (o : Option ℚ) : ℚ := o.getD 1

/-- The tick events of the fadeIn run on child k, started without an
options argument. -/
def childTickEvents (k : Nat) (o : Option ℚ) : List PEvent :=
  (fadeInDelays (startOpacity o) 80).map (PEvent.fadeTick k)

/-- The event trace of fadeInRecursive(i) on the given children, whose
entries are the initial opacities. -/
def fadeInRecursiveTrace (children : List (Option ℚ)) (timeout : ℚ)
    (i : Nat) : List PEvent :=
  if h : children.length ≤ i then [PEvent.callbackFired]
  else
    childTickEvents i (children.get ⟨i, by omega⟩) ++
      (PEvent.interPause timeout :: fadeInRecursiveTrace children timeout (i + 1))
termination_by children.length - i

/-- The event trace of fadeInChildrenProgressively: the driver starts
at index 0. -/
def progTrace (timeout : ℚ) (children : List (Option ℚ)) : List PEvent :=
  fadeInRecursiveTrace children timeout 0

def isCallback : PEvent → Bool
  | .callbackFired => true
  | _ => false

def pauseDelay : PEvent → ℚ
  | .interPause d => d
  | _ => 0

/-- Number of invocations of the overall callback in a trace. -/
def countCallbacks : List PEvent → Nat
  | [] => 0
  | e :: l => (if isCallback e then 1 else 0) + countCallbacks l

/-- Sum of all inter-child pause delays in a trace. -/
def totalPauseDelay : List PEvent → ℚ
  | [] => 0
  | e :: l => pauseDelay e + totalPauseDelay l

/-! ## SlideshowPaginator: content partition
(src/WebUtils.js, prepareSlideshow, lines 157-300)

The row loop runs for let i = 0 while i < divs.length / numVisible
(real division; for integer i and numVisible >= 1 the condition is
equivalent to i * numVisible < divs.length). Each iteration appends a
fresh row and then runs while (divIndex < divs.length) from
divIndex = i * numVisible, appending divs[divIndex] to the row - all
the way to the END of the array, not only numVisible entries. Because
the DOM appendChild MOVES a node (detaching it from its previous
parent), each div ends up in the last row that appended it. The
embedding tracks, per row, the ordered list of div indices currently
inside it: removeDiv models the detach half of appendChild and
appendDiv the attach half. The source cannot receive numVisible = 0
(options.numVisible is falsy at 0, so the default 3 applies), and the
claim restricts pageSize to k >= 1, so buildLoop takes the page size
as kk + 1. -/

def removeDiv (state : List (List Nat)) (j : Nat) : List (List Nat) :=
  state.map (List.filter (fun x => x != j))

def appendDiv (state : List (List Nat)) (i j : Nat) : List (List Nat) :=
  state.set i ((state.getD i []) ++ [j])

/-- The inner while loop of row i: move each div in js into row i, in
order (appendChild = detach from the old row + append to row i). -/
def fillRow (state : List (List Nat)) (i : Nat) : List Nat → List (List Nat)
  | [] => state
  | j :: js => fillRow (appendDiv (removeDiv state j) i j) i js

/-- The outer row loop: while i * (kk+1) < N, append an empty row and
move divs i*(kk+1) .. N-1 into it. -/
def buildLoop (N kk : Nat) (i : Nat) (state : List (List Nat)) :
    List (List Nat) :=
  if i * (kk + 1) < N then
    buildLoop N kk (i + 1)
      (fillRow (state ++ [[]]) i (List.range' (i * (kk + 1)) (N - i * (kk + 1))))
  else state
termination_by N - i
decreasing_by
  rename_i h
  have hle : i ≤ i * (kk + 1) := Nat.le_mul_of_pos_right i (Nat.succ_pos kk)
  omega

/-- The final per-row div contents of prepareSlideshow on N divs with
numVisible = k (meaningful for k >= 1; divs are named by their input
index). -/
def slideshowPages (N k : Nat) : List (List Nat) :=
  buildLoop N (k - 1) 0 []

/-- The i-th page of the order-preserving partition, as the spec
describes it: indices i*k up to min ((i+1)*k) N - 1. -/
def pageChunk (N k i : Nat) : List Nat :=
  List.range' (i * k) (min k (N - i * k))

/-- A row that later rows have stopped touching: exactly k divs. -/
def closedChunk (k t : Nat) : List Nat := List.range' (t * k) k

/-- Loop state at entry of iteration i (for i >= 1): rows 0..i-2 are
closed, row i-1 still holds every div from (i-1)*k to the end. -/
def openState (N k i : Nat) : List (List Nat) :=
  (List.range (i - 1)).map (closedChunk k) ++
    [List.range' ((i - 1) * k) (N - (i - 1) * k)]

/-! ## SlideshowPaginator: page visibility and navigation
(src/WebUtils.js, prepareSlideshow, lines 184-291, and fadeOut,
lines 343-363)

Observable state: per row, the display flag (true = visible, the
source leaves row 0's display untouched and sets display none for
every later row, lines 189-191) and the opacity (string-encoded,
initially unset); plus the list of in-flight fadeOut tasks, each
remembering the row it fades and the direction of the navigation that
started it. A navigation click runs the synchronous part of fadeOut
(initialize an unset opacity to 1.0, schedule the first tick); each
tick either commits opacity - 0.1 or, when the new value would drop
below 0, clamps to 0 and runs the completion callback, which hides the
outgoing row and shows the adjacent row at opacity 1.0 (lines 221-227
and 274-280), all within that single continuation. Click events can
only be delivered for a row that is displayed, and only on enabled
buttons (left disabled on row 0, right disabled on the last row,
lines 202-204 and 255-257; the source assumes a click cannot happen if
disabled). Tick events fire any in-flight task, over-approximating the
host scheduler's timing. Two clicks before a fade finishes put two
tasks on the same row, exactly as the un-debounced source does. -/

structure SlideState where
  display : List Bool
  opacity : List (Option ℚ)
  fades : List (Nat × Bool)
deriving DecidableEq

inductive SlideEv where
  | clickNav (i : Nat) (right : Bool)
  | tick (t : Nat)
deriving DecidableEq

/-- The row a completed navigation reveals: trEls[idx+1] for the right
button, trEls[idx-1] for the left button. -/
def navTarget (r : Nat) (right : Bool) : Nat := if right then r + 1 else r - 1

/-- State right after construction: row 0 visible, the rest hidden,
every opacity unset, no fade in flight. -/
def slideInit (n : Nat) : SlideState :=
  ⟨(List.range n).map (fun i => i == 0), List.replicate n none, []⟩

/-- One observable transition of a slideshow with n rows. -/
def slideStep (n : Nat) (s : SlideState) (e : SlideEv) : Option SlideState :=
  match e with
  | .clickNav i right =>
      if (s.display.getD i false) = true ∧
          (if right then i + 1 < n else 0 < i) then
        some { display := s.display,
               opacity := s.opacity.set i (some ((s.opacity.getD i none).getD 1)),
               fades := s.fades ++ [(i, right)] }
      else none
  | .tick t =>
      match s.fades[t]? with
      | none => none
      | some (r, right) =>
          let o := (s.opacity.getD r none).getD 1
          let newO := o - 1 / 10
          if newO < 0 then
            some { display := (s.display.set r false).set (navTarget r right) true,
                   opacity := (s.opacity.set r (some 0)).set
                     (navTarget r right) (some 1),
                   fades := s.fades.eraseIdx t }
          else
            some { s with opacity := s.opacity.set r (some newO) }

/-- Run a sequence of observable transitions. -/
def runSlide (n : Nat) (s : SlideState) : List SlideEv → Option SlideState
  | [] => some s
  | e :: es =>
      match slideStep n s e with
      | none => none
      | some s' => runSlide n s' es

/-- States reachable when the user never clicks while a fade is in
flight (the proviso the amended claim adds). -/
inductive GoodReach (n : Nat) : SlideState → Prop where
  | init : GoodReach n (slideInit n)
  | click (s s' : SlideState) (i : Nat) (right : Bool) :
      GoodReach n s → s.fades = [] →
      slideStep n s (SlideEv.clickNav i right) = some s' → GoodReach n s'
  | tick (s s' : SlideState) (t : Nat) :
      GoodReach n s → slideStep n s (SlideEv.tick t) = some s' → GoodReach n s'

/-- Invariant of good runs: exactly one row visible, and any in-flight
fade is alone, fades the visible row, and has an in-range target. -/
def SlideInv (n : Nat) (s : SlideState) : Prop :=
  s.display.length = n ∧ s.opacity.length = n ∧
  s.display.count true = 1 ∧
  (s.fades = [] ∨ ∃ r right, s.fades = [(r, right)] ∧
    s.display.getD r false = true ∧
    (right = true → r + 1 < n) ∧ (right = false → 0 < r ∧ r < n))

/-- The racing double click of the counterexample: navigate from row 0
to row 1, then click right and left on row 1 before the first of the
two fades finishes. -/
def overlappingClicks : List SlideEv :=
  [SlideEv.clickNav 0 true] ++ List.replicate 11 (SlideEv.tick 0) ++
    [SlideEv.clickNav 1 true, SlideEv.clickNav 1 false] ++
    List.replicate 12 (SlideEv.tick 0)

theorem whichIsParentAux_spec {α : Type} (ct : α → α → Bool) (child : α) :
    ∀ (ps : List α) (i : Nat),
      (whichIsParentAux ct child i ps = -1 ∧ ∀ p ∈ ps, ct p child = false) ∨
      (∃ j : Fin ps.length,
        whichIsParentAux ct child i ps = ((i + (j : Nat) : Nat) : Int) ∧
        ct (ps.get j) child = true ∧
        ∀ j' : Fin ps.length, j' < j → ct (ps.get j') child = false) := by
  intro ps
  induction ps with
  | nil =>
      intro i
      left
      exact ⟨rfl, by simp⟩
  | cons p ps ih =>
      intro i
      by_cases hp : ct p child = true
      · right
        refine ⟨⟨0, by simp⟩, ?_, hp, ?_⟩
        · simp [whichIsParentAux, hp]
        · intro j' hj'
          exact absurd hj' (by simp [Fin.lt_def])
      · have hstep : whichIsParentAux ct child i (p :: ps) =
            whichIsParentAux ct child (i + 1) ps := by
          simp [whichIsParentAux, hp]
        rcases ih (i + 1) with ⟨h1, h2⟩ | ⟨j, h1, h2, h3⟩
        · left
          refine ⟨hstep.trans h1, ?_⟩
          intro q hq
          rcases List.mem_cons.mp hq with rfl | hq'
          · exact Bool.eq_false_iff.mpr hp
          · exact h2 q hq'
        · right
          refine ⟨⟨(j : Nat) + 1, by exact Nat.succ_lt_succ j.isLt⟩, ?_, ?_, ?_⟩
          · rw [hstep, h1]
            congr 1
            simp only [Fin.val_mk]
            omega
          · simp only [List.get_cons_succ]
            exact h2
          · intro j' hj'
            rcases j' with ⟨jv, hjv⟩
            cases jv with
            | zero => exact Bool.eq_false_iff.mpr hp
            | succ jv' =>
                have hlt : jv' < (j : Nat) := by
                  simpa [Fin.lt_def] using hj'
                have := h3 ⟨jv', by omega⟩ (by simpa [Fin.lt_def] using hlt)
                simpa using this

/-- C9: the resolver returns the smallest index whose candidate contains
the origin (for the containment test supplied by the host, which for the
DOM includes the origin being the candidate itself), and returns the
sentinel -1 when no candidate contains the origin. The embedding is a
pure function, so it mutates nothing. -/
theorem whichIsParent_correct {α : Type} (ct : α → α → Bool) (child : α)
    (ps : List α) :
    (whichIsParent ct child ps = -1 ∧ ∀ p ∈ ps, ct p child = false) ∨
    (∃ j : Fin ps.length,
      whichIsParent ct child ps = ((j : Nat) : Int) ∧
      ct (ps.get j) child = true ∧
      ∀ j' : Fin ps.length, j' < j → ct (ps.get j') child = false) := by
  have h := whichIsParentAux_spec ct child ps 0
  rcases h with ⟨h1, h2⟩ | ⟨j, h1, h2, h3⟩
  · exact Or.inl ⟨h1, h2⟩
  · refine Or.inr ⟨j, ?_, h2, h3⟩
    simpa using h1

theorem getD_set_self (l : List String) (k : Nat) (c d : String)
    (h : k < l.length) : (l.set k c).getD k d = c := by
  simp [List.getD, List.getElem?_set_self, h]

theorem getD_set_other (l : List String) (k j : Nat) (c d : String)
    (h : k ≠ j) : (l.set k c).getD j d = l.getD j d := by
  simp [List.getD, List.getElem?_set_ne h]

theorem count_le_one_of_unique (l : List String) (c : String) :
    ∀ t : Nat, (∀ j, j < l.length → j ≠ t → l.getD j "" ≠ c) →
    l.count c ≤ 1 := by
  induction l with
  | nil => intro t _; simp
  | cons a l ih =>
      intro t h
      cases t with
      | zero =>
          have hz : l.count c = 0 := by
            rw [List.count_eq_zero]
            intro hc
            rcases List.mem_iff_get.mp hc with ⟨j, hj⟩
            have := h (j + 1) (by exact Nat.succ_lt_succ j.isLt)
              (Nat.succ_ne_zero _)
            apply this
            simpa [List.getD, List.getElem?_eq_getElem j.isLt] using hj
          simp [List.count_cons, hz]
          split <;> simp
      | succ t' =>
          have ha : a ≠ c := by
            have := h 0 (Nat.succ_pos _) (by omega)
            simpa [List.getD] using this
          have : l.count c ≤ 1 := by
            apply ih t'
            intro j hj hjt
            have := h (j + 1) (by simp only [List.length_cons]; omega)
              (by omega)
            simpa [List.getD] using this
          simpa [List.count_cons, ha] using this

theorem sbStep_preserves (cfg : SBCfg) (n : Nat) (s s' : SBState)
    (e : SBEvent) (calls : List Int)
    (hd : cfg.selectedColor ≠ cfg.defaultColor)
    (hm : cfg.selectedColor ≠ cfg.mouseOverColor)
    (hres : 0 ≤ e.idx ∧ e.idx < n)
    (hinv : SBInv cfg n s)
    (hstep : sbStep cfg s e = some (s', calls)) : SBInv cfg n s' := by
  obtain ⟨hlen, hact, huniq⟩ := hinv
  cases e with
  | enter idx =>
      simp only [SBEvent.idx] at hres
      obtain ⟨h0, h1⟩ := hres
      by_cases hne : s.activeIndex ≠ idx
      · have hbound : 0 ≤ idx ∧ idx.toNat < s.border.length := by
          constructor
          · exact h0
          · omega
        simp only [sbStep, if_pos hne, setBorder, if_pos hbound,
          Option.map_some'] at hstep
        cases hstep
        refine ⟨by simpa using hlen, ?_, ?_⟩
        · dsimp only
          rcases hact with h | ⟨ha0, ha1, ha2⟩
          · exact Or.inl h
          · refine Or.inr ⟨ha0, ha1, ?_⟩
            rw [getD_set_other]
            · exact ha2
            · omega
        · dsimp only
          intro j hj hjne
          by_cases hji : j = idx.toNat
          · subst hji
            rw [getD_set_self]
            · exact fun hc => hm hc.symm
            · omega
          · rw [getD_set_other _ _ _ _ _ (fun hc => hji hc.symm)]
            exact huniq j hj hjne
      · simp only [sbStep, if_neg hne] at hstep
        cases hstep
        exact ⟨hlen, hact, huniq⟩
  | leave idx =>
      simp only [SBEvent.idx] at hres
      obtain ⟨h0, h1⟩ := hres
      by_cases hne : s.activeIndex ≠ idx
      · have hbound : 0 ≤ idx ∧ idx.toNat < s.border.length := by
          constructor
          · exact h0
          · omega
        simp only [sbStep, if_pos hne, setBorder, if_pos hbound,
          Option.map_some'] at hstep
        cases hstep
        refine ⟨by simpa using hlen, ?_, ?_⟩
        · dsimp only
          rcases hact with h | ⟨ha0, ha1, ha2⟩
          · exact Or.inl h
          · refine Or.inr ⟨ha0, ha1, ?_⟩
            rw [getD_set_other]
            · exact ha2
            · omega
        · dsimp only
          intro j hj hjne
          by_cases hji : j = idx.toNat
          · subst hji
            rw [getD_set_self]
            · exact fun hc => hd hc.symm
            · omega
          · rw [getD_set_other _ _ _ _ _ (fun hc => hji hc.symm)]
            exact huniq j hj hjne
      · simp only [sbStep, if_neg hne] at hstep
        cases hstep
        exact ⟨hlen, hact, huniq⟩
  | click idx =>
      simp only [SBEvent.idx] at hres
      obtain ⟨h0, h1⟩ := hres
      have hb1 : ∃ b1, (if s.activeIndex ≠ -1 then
          setBorder s.border s.activeIndex cfg.defaultColor
          else some s.border) = some b1 ∧ b1.length = n ∧
          (∀ j, j < n → (j : Int) ≠ s.activeIndex →
            b1.getD j "" = s.border.getD j "") := by
        by_cases hne : s.activeIndex ≠ -1
        · rcases hact with h | ⟨ha0, ha1, ha2⟩
          · exact absurd h hne
          · refine ⟨s.border.set s.activeIndex.toNat cfg.defaultColor,
              ?_, by simpa using hlen, ?_⟩
            · rw [if_pos hne]
              unfold setBorder
              rw [if_pos ⟨ha0, by omega⟩]
            · intro j hj hjne
              rw [getD_set_other]
              omega
        · exact ⟨s.border, by rw [if_neg hne], hlen, fun _ _ _ => rfl⟩
      obtain ⟨b1, hb1eq, hb1len, hb1same⟩ := hb1
      have hbound2 : 0 ≤ idx ∧ idx.toNat < b1.length := ⟨h0, by omega⟩
      rw [sbStep, hb1eq] at hstep
      simp only [setBorder, if_pos hbound2] at hstep
      have hs' : s' = ⟨b1.set idx.toNat cfg.selectedColor, idx⟩ := by
        by_cases hne : s.activeIndex ≠ idx
        · rw [if_pos hne] at hstep
          exact (Prod.mk.injEq _ _ _ _ ▸ Option.some.injEq _ _ ▸ hstep).1.symm
        · rw [if_neg hne] at hstep
          push_neg at hne
          cases hstep
          simp [hne]
      subst hs'
      refine ⟨by simpa using hb1len, ?_, ?_⟩
      · dsimp only
        refine Or.inr ⟨h0, by omega, ?_⟩
        rw [getD_set_self]
        omega
      · dsimp only
        intro j hj hjne
        have hji : idx.toNat ≠ j := by omega
        rw [getD_set_other _ _ _ _ _ hji]
        by_cases hja : (j : Int) = s.activeIndex
        · rcases hact with h | ⟨ha0, ha1, ha2⟩
          · omega
          · have hne : s.activeIndex ≠ -1 := by omega
            rw [if_pos hne] at hb1eq
            unfold setBorder at hb1eq
            rw [if_pos ⟨ha0, by omega⟩] at hb1eq
            cases hb1eq
            have : j = s.activeIndex.toNat := by omega
            subst this
            rw [getD_set_self]
            · exact fun hc => hd hc.symm
            · omega
        · rw [hb1same j hj hja]
          exact huniq j hj hja

theorem sbRun_inv (cfg : SBCfg) (n : Nat)
    (hd : cfg.selectedColor ≠ cfg.defaultColor)
    (hm : cfg.selectedColor ≠ cfg.mouseOverColor) :
    ∀ (es : List SBEvent) (s s' : SBState),
      SBInv cfg n s → (∀ e ∈ es, 0 ≤ e.idx ∧ e.idx < n) →
      sbRun cfg s es = some s' → SBInv cfg n s' := by
  intro es
  induction es with
  | nil =>
      intro s s' hinv _ hrun
      cases hrun
      exact hinv
  | cons e es ih =>
      intro s s' hinv hres hrun
      rw [sbRun] at hrun
      rcases hstep : sbStep cfg s e with _ | ⟨s1, calls⟩
      · rw [hstep] at hrun; cases hrun
      · rw [hstep] at hrun
        exact ih s1 s'
          (sbStep_preserves cfg n s s1 e calls hd hm
            (hres e (List.mem_cons_self e es)) hinv hstep)
          (fun e' he' => hres e' (List.mem_cons_of_mem _ he')) hrun

/-- C1 (amended): for every SelectableBlockController whose selectedColor
differs from defaultColor and from mouseOverColor, and every sequence of
resolved pointer-enter, pointer-leave and click events, at most one
element's borderColor equals selectedColor at any observable point, and
whenever the current selection is not -1 the element at that index is
exactly the one carrying selectedColor. -/
theorem selectable_exclusive (cfg : SBCfg) (n : Nat) (es : List SBEvent)
    (s' : SBState)
    (hd : cfg.selectedColor ≠ cfg.defaultColor)
    (hm : cfg.selectedColor ≠ cfg.mouseOverColor)
    (hres : ∀ e ∈ es, 0 ≤ e.idx ∧ e.idx < n)
    (hrun : sbRun cfg (sbInit n cfg) es = some s') :
    s'.border.count cfg.selectedColor ≤ 1 ∧
    (s'.activeIndex ≠ -1 →
      0 ≤ s'.activeIndex ∧ s'.activeIndex.toNat < n ∧
      s'.border.getD s'.activeIndex.toNat "" = cfg.selectedColor ∧
      ∀ j, j < n → (j : Int) ≠ s'.activeIndex →
        s'.border.getD j "" ≠ cfg.selectedColor) := by
  have hinit : SBInv cfg n (sbInit n cfg) := by
    refine ⟨by simp [sbInit], Or.inl rfl, ?_⟩
    intro j hj _
    have : (List.replicate n cfg.defaultColor).getD j "" = cfg.defaultColor := by
      simp [List.getD, List.getElem?_eq_getElem, hj]
    rw [sbInit] at *
    simp only at this ⊢
    rw [this]
    exact fun hc => hd hc.symm
  obtain ⟨hlen, hact, huniq⟩ := sbRun_inv cfg n hd hm es _ s' hinit hres hrun
  constructor
  · apply count_le_one_of_unique s'.border cfg.selectedColor s'.activeIndex.toNat
    intro j hj hjt
    apply huniq j (by omega)
    rcases hact with h | ⟨ha0, ha1, _⟩
    · intro hc
      omega
    · intro hc
      omega
  · intro hne
    rcases hact with h | ⟨ha0, ha1, ha2⟩
    · exact absurd h hne
    · exact ⟨ha0, ha1, ha2, fun j hj hjne => huniq j hj hjne⟩

/-- C1 witness: the amended theorem applied to the default colors, two
elements and a single resolved click on element 0. -/
theorem selectable_exclusive_witness :
    (⟨["red", "black"], 0⟩ : SBState).border.count
        sbCfgDefault.selectedColor ≤ 1 ∧
    ((⟨["red", "black"], 0⟩ : SBState).activeIndex ≠ -1 →
      0 ≤ (⟨["red", "black"], 0⟩ : SBState).activeIndex ∧
      (⟨["red", "black"], 0⟩ : SBState).activeIndex.toNat < 2 ∧
      (⟨["red", "black"], 0⟩ : SBState).border.getD
        (⟨["red", "black"], 0⟩ : SBState).activeIndex.toNat ""
        = sbCfgDefault.selectedColor ∧
      ∀ j : Nat, j < 2 → (j : Int) ≠ (⟨["red", "black"], 0⟩ : SBState).activeIndex →
        (⟨["red", "black"], 0⟩ : SBState).border.getD j ""
          ≠ sbCfgDefault.selectedColor) :=
  selectable_exclusive sbCfgDefault 2 [SBEvent.click 0] ⟨["red", "black"], 0⟩
    (by decide) (by decide) (by decide) (by decide)

/-- C1 counterexample theorem: two elements carry selectedColor after a
resolved click, refuting the claim as stated. -/
theorem selectable_exclusive_counterexample :
    sbRun sbCfgDegenerate (sbInit 2 sbCfgDegenerate) [SBEvent.click 0] =
      some ⟨["red", "red"], 0⟩ ∧
    ¬ ((["red", "red"] : List String).count sbCfgDegenerate.selectedColor ≤ 1) := by
  decide

/-- C2: a resolved click on index i updates activeIndex to i strictly
before invoking onSelect, so the recorded onSelect argument (read from
the already-updated activeIndex, as a reentrant currentSelection would)
equals i, and onSelect runs exactly once for a click that changes the
selection; a click on the already-active index invokes no onSelect and
leaves activeIndex at the same value. -/
theorem click_onSelect_semantics (cfg : SBCfg) (n : Nat) (s : SBState)
    (i : Int)
    (hlen : s.border.length = n)
    (hact : s.activeIndex = -1 ∨ (0 ≤ s.activeIndex ∧ s.activeIndex.toNat < n))
    (hi : 0 ≤ i ∧ i < n) :
    ∃ s' : SBState, ∃ calls : List Int,
      sbStep cfg s (SBEvent.click i) = some (s', calls) ∧
      (s.activeIndex ≠ i →
        s'.activeIndex = i ∧ calls = [s'.activeIndex] ∧ calls = [i]) ∧
      (s.activeIndex = i → s'.activeIndex = s.activeIndex ∧ calls = []) := by
  obtain ⟨h0, h1⟩ := hi
  have hb1 : ∃ b1, (if s.activeIndex ≠ -1 then
      setBorder s.border s.activeIndex cfg.defaultColor
      else some s.border) = some b1 ∧ b1.length = n := by
    by_cases hne : s.activeIndex ≠ -1
    · rcases hact with h | ⟨ha0, ha1⟩
      · exact absurd h hne
      · refine ⟨s.border.set s.activeIndex.toNat cfg.defaultColor, ?_,
          by simpa using hlen⟩
        rw [if_pos hne]
        unfold setBorder
        rw [if_pos ⟨ha0, by omega⟩]
    · exact ⟨s.border, by rw [if_neg hne], hlen⟩
  obtain ⟨b1, hb1eq, hb1len⟩ := hb1
  have hbound2 : 0 ≤ i ∧ i.toNat < b1.length := ⟨h0, by omega⟩
  by_cases hne : s.activeIndex ≠ i
  · refine ⟨⟨b1.set i.toNat cfg.selectedColor, i⟩, [i], ?_, ?_, ?_⟩
    · rw [sbStep, hb1eq]
      simp only [setBorder, if_pos hbound2]
      rw [if_pos hne]
    · exact fun _ => ⟨rfl, rfl, rfl⟩
    · intro h; exact absurd h hne
  · push_neg at hne
    refine ⟨⟨b1.set i.toNat cfg.selectedColor, i⟩, [], ?_, ?_, ?_⟩
    · rw [sbStep, hb1eq]
      simp only [setBorder, if_pos hbound2]
      rw [if_neg (by simpa using hne)]
    · intro h; exact absurd hne h
    · exact fun _ => ⟨hne.symm, rfl⟩

/-- C2 witness: the theorem applied to a fresh controller with the
default colors, two elements, and a click resolved to index 0. -/
theorem click_onSelect_semantics_witness :
    ∃ s' : SBState, ∃ calls : List Int,
      sbStep sbCfgDefault (sbInit 2 sbCfgDefault) (SBEvent.click 0) =
        some (s', calls) ∧
      ((sbInit 2 sbCfgDefault).activeIndex ≠ 0 →
        s'.activeIndex = 0 ∧ calls = [s'.activeIndex] ∧ calls = [0]) ∧
      ((sbInit 2 sbCfgDefault).activeIndex = 0 →
        s'.activeIndex = (sbInit 2 sbCfgDefault).activeIndex ∧ calls = []) :=
  click_onSelect_semantics sbCfgDefault 2 (sbInit 2 sbCfgDefault) 0
    (by decide) (Or.inl rfl) (by decide)

/-- C4 counterexample: after a resolved click selects element 0, an
unresolved pointer-enter or pointer-leave (resolver result -1) passes
the guard activeIndex != thisElsIndex and indexes the element array at
-1, so the handler faults instead of being a safe no-op. -/
theorem unresolved_hover_counterexample :
    sbRun sbCfgDefault (sbInit 2 sbCfgDefault)
      [SBEvent.click 0, SBEvent.enter (-1)] = none ∧
    sbRun sbCfgDefault (sbInit 2 sbCfgDefault)
      [SBEvent.click 0, SBEvent.leave (-1)] = none := by
  decide

/-- C4 (amended): an unresolved pointer-enter or pointer-leave event is
a safe no-op (no fault, no border change, no onSelect call) exactly when
no element is currently selected; with a selection active the guard
passes and the handler faults on the -1 index, as the counterexample
shows. -/
theorem unresolved_hover_noop (cfg : SBCfg) (s : SBState)
    (h : s.activeIndex = -1) :
    sbStep cfg s (SBEvent.enter (-1)) = some (s, []) ∧
    sbStep cfg s (SBEvent.leave (-1)) = some (s, []) := by
  constructor
  · rw [sbStep, if_neg (by rw [h]; simp)]
  · rw [sbStep, if_neg (by rw [h]; simp)]

/-- C4 witness: the amended no-op behavior on a fresh two-element
controller, where nothing is selected. -/
theorem unresolved_hover_noop_witness :
    sbStep sbCfgDefault (sbInit 2 sbCfgDefault) (SBEvent.enter (-1)) =
      some (sbInit 2 sbCfgDefault, []) ∧
    sbStep sbCfgDefault (sbInit 2 sbCfgDefault) (SBEvent.leave (-1)) =
      some (sbInit 2 sbCfgDefault, []) :=
  unresolved_hover_noop sbCfgDefault (sbInit 2 sbCfgDefault) rfl

theorem fadeInDelays_cont (o first : ℚ) (h : ¬ 1 < o + 1 / 10) :
    fadeInDelays o first = first :: fadeInDelays (o + 1 / 10) 80 := by
  rw [fadeInDelays, if_neg h]

theorem fadeInDelays_fin (o first : ℚ) (h : 1 < o + 1 / 10) :
    fadeInDelays o first = [first] := by
  rw [fadeInDelays, if_pos h]

theorem fadeOutDelays_cont (o first : ℚ) (h : ¬ o - 1 / 10 < 0) :
    fadeOutDelays o first = first :: fadeOutDelays (o - 1 / 10) 80 := by
  rw [fadeOutDelays, if_neg h]

theorem fadeOutDelays_fin (o first : ℚ) (h : o - 1 / 10 < 0) :
    fadeOutDelays o first = [first] := by
  rw [fadeOutDelays, if_pos h]

theorem fadeInDelays_zero (first : ℚ) :
    fadeInDelays 0 first =
      [first, 80, 80, 80, 80, 80, 80, 80, 80, 80, 80] := by
  rw [fadeInDelays_cont _ _ (by norm_num)]
  rw [fadeInDelays_cont _ _ (by norm_num)]
  rw [fadeInDelays_cont _ _ (by norm_num)]
  rw [fadeInDelays_cont _ _ (by norm_num)]
  rw [fadeInDelays_cont _ _ (by norm_num)]
  rw [fadeInDelays_cont _ _ (by norm_num)]
  rw [fadeInDelays_cont _ _ (by norm_num)]
  rw [fadeInDelays_cont _ _ (by norm_num)]
  rw [fadeInDelays_cont _ _ (by norm_num)]
  rw [fadeInDelays_cont _ _ (by norm_num)]
  rw [fadeInDelays_fin _ _ (by norm_num)]

theorem fadeOutDelays_one (first : ℚ) :
    fadeOutDelays 1 first =
      [first, 80, 80, 80, 80, 80, 80, 80, 80, 80, 80] := by
  rw [fadeOutDelays_cont _ _ (by norm_num)]
  rw [fadeOutDelays_cont _ _ (by norm_num)]
  rw [fadeOutDelays_cont _ _ (by norm_num)]
  rw [fadeOutDelays_cont _ _ (by norm_num)]
  rw [fadeOutDelays_cont _ _ (by norm_num)]
  rw [fadeOutDelays_cont _ _ (by norm_num)]
  rw [fadeOutDelays_cont _ _ (by norm_num)]
  rw [fadeOutDelays_cont _ _ (by norm_num)]
  rw [fadeOutDelays_cont _ _ (by norm_num)]
  rw [fadeOutDelays_cont _ _ (by norm_num)]
  rw [fadeOutDelays_fin _ _ (by norm_num)]

/-- C6: evaluating the fade tick schedule at the failing input. A fadeIn
from opacity 0.0 with configured stepIntervalMs 10, and a fadeOut from
1.0 with configured stepIntervalMs 10, schedule only their first tick
with delay 10; every one of the ten subsequent ticks is scheduled with
the default 80, because the recursive calls on lines 329 and 360 drop
the options argument. This refutes the claim that every tick of the
sequence uses the configured interval. -/
theorem fade_step_interval_dropped :
    fadeInDelays 0 10 = [10, 80, 80, 80, 80, 80, 80, 80, 80, 80, 80] ∧
    fadeOutDelays 1 10 = [10, 80, 80, 80, 80, 80, 80, 80, 80, 80, 80] :=
  ⟨fadeInDelays_zero 10, fadeOutDelays_one 10⟩

theorem countCallbacks_append (l1 l2 : List PEvent) :
    countCallbacks (l1 ++ l2) = countCallbacks l1 + countCallbacks l2 := by
  induction l1 with
  | nil => simp [countCallbacks]
  | cons e l ih => simp [countCallbacks, ih]; omega

theorem totalPauseDelay_append (l1 l2 : List PEvent) :
    totalPauseDelay (l1 ++ l2) = totalPauseDelay l1 + totalPauseDelay l2 := by
  induction l1 with
  | nil => simp [totalPauseDelay]
  | cons e l ih => simp [totalPauseDelay, ih]; ring

theorem countCallbacks_childTickEvents (k : Nat) (o : Option ℚ) :
    countCallbacks (childTickEvents k o) = 0 := by
  unfold childTickEvents
  induction fadeInDelays (startOpacity o) 80 with
  | nil => rfl
  | cons d l ih => simpa [countCallbacks, isCallback] using ih

theorem totalPauseDelay_childTickEvents (k : Nat) (o : Option ℚ) :
    totalPauseDelay (childTickEvents k o) = 0 := by
  unfold childTickEvents
  induction fadeInDelays (startOpacity o) 80 with
  | nil => rfl
  | cons d l ih => simpa [totalPauseDelay, pauseDelay] using ih

theorem countCallbacks_blocks (timeout : ℚ) (l : List (Nat × Option ℚ)) :
    countCallbacks ((l.map
      (fun p => childTickEvents p.1 p.2 ++ [PEvent.interPause timeout])).flatten)
      = 0 := by
  induction l with
  | nil => rfl
  | cons p l ih =>
      simp only [List.map_cons, List.flatten_cons, countCallbacks_append,
        countCallbacks_childTickEvents, ih]
      simp [countCallbacks, isCallback]

theorem totalPauseDelay_blocks (timeout : ℚ) (l : List (Nat × Option ℚ)) :
    totalPauseDelay ((l.map
      (fun p => childTickEvents p.1 p.2 ++ [PEvent.interPause timeout])).flatten)
      = l.length * timeout := by
  induction l with
  | nil => simp [totalPauseDelay]
  | cons p l ih =>
      simp only [List.map_cons, List.flatten_cons, totalPauseDelay_append,
        totalPauseDelay_childTickEvents, ih, List.length_cons]
      simp [totalPauseDelay, pauseDelay]
      ring

theorem fadeInRecursiveTrace_struct (children : List (Option ℚ))
    (timeout : ℚ) :
    ∀ (d i : Nat), children.length - i = d →
      fadeInRecursiveTrace children timeout i =
        ((List.enumFrom i (children.drop i)).map
          (fun p => childTickEvents p.1 p.2 ++ [PEvent.interPause timeout])).flatten
          ++ [PEvent.callbackFired] := by
  intro d
  induction d with
  | zero =>
      intro i hi
      have hle : children.length ≤ i := by omega
      rw [fadeInRecursiveTrace]
      simp [hle, List.drop_eq_nil_of_le hle]
  | succ d ih =>
      intro i hi
      have hlt : i < children.length := by omega
      have hdrop : children.drop i =
          children.get ⟨i, hlt⟩ :: children.drop (i + 1) := by
        rw [List.drop_eq_getElem_cons hlt]
        simp
      rw [fadeInRecursiveTrace]
      rw [dif_neg (by omega)]
      rw [ih (i + 1) (by omega), hdrop]
      simp [List.enumFrom, List.append_assoc]

/-- C5 (amended): fadeInChildrenProgressively runs the children's fades
strictly sequentially: the trace is exactly, for each child k in order,
the tick events of the fadeIn of child k followed by one interPause of
interDelayMs, and then a single callbackFired. Hence onComplete is
invoked exactly once, the total inter-fade delay added beyond the
children's own fade durations is count * interDelayMs (not
(count - 1) * interDelayMs), and onComplete fires one further
interDelayMs after the last child's fade completes. -/
theorem progressive_fade_trace (timeout : ℚ)
    (children : List (Option ℚ)) :
    progTrace timeout children =
      ((children.enum.map
        (fun p => childTickEvents p.1 p.2 ++ [PEvent.interPause timeout])).flatten
        ++ [PEvent.callbackFired]) ∧
    countCallbacks (progTrace timeout children) = 1 ∧
    totalPauseDelay (progTrace timeout children) =
      children.length * timeout := by
  have hstruct := fadeInRecursiveTrace_struct children timeout
    (children.length - 0) 0 rfl
  have henum : List.enumFrom 0 (children.drop 0) = children.enum := by
    simp [List.enum]
  rw [progTrace]
  refine ⟨by rw [hstruct, henum], ?_, ?_⟩
  · rw [hstruct, henum, countCallbacks_append, countCallbacks_blocks]
    simp [countCallbacks, isCallback]
  · rw [hstruct, henum, totalPauseDelay_append, totalPauseDelay_blocks]
    simp [totalPauseDelay, pauseDelay, List.enum_length]

/-- C5 counterexample: one child at opacity 0.0 with interDelayMs 2000.
The trace ends with an interPause of 2000 immediately before
callbackFired, so onComplete does not fire when the last child's fade
completes but one interDelayMs later, and the total added inter-fade
delay is 1 * 2000 = 2000, not (1 - 1) * 2000 = 0. -/
theorem progressive_fade_counterexample :
    progTrace 2000 [some 0] =
      (List.map (PEvent.fadeTick 0)
        [80, 80, 80, 80, 80, 80, 80, 80, 80, 80, 80]) ++
        [PEvent.interPause 2000, PEvent.callbackFired] ∧
    totalPauseDelay (progTrace 2000 [some 0]) = 2000 ∧
    (2000 : ℚ) ≠ ((1 : ℚ) - 1) * 2000 := by
  have hstruct := fadeInRecursiveTrace_struct [some 0] 2000 1 0 rfl
  have htick : childTickEvents 0 (some 0) =
      List.map (PEvent.fadeTick 0)
        [80, 80, 80, 80, 80, 80, 80, 80, 80, 80, 80] := by
    rw [childTickEvents, startOpacity]
    rw [show (Option.getD (some 0) 1 : ℚ) = 0 by rfl]
    rw [fadeInDelays_zero]
  refine ⟨?_, ?_, by norm_num⟩
  · rw [progTrace, hstruct]
    simp only [List.drop, List.enumFrom, List.map, List.flatten, htick]
    simp [List.append_assoc]
  · rw [progTrace, hstruct]
    simp only [List.drop, List.enumFrom, List.map, List.flatten, htick]
    simp [totalPauseDelay, pauseDelay]

/-- C10: calling fadeInChildrenProgressively on a container with zero
children makes the driver hit its base case immediately: the overall
callback fires exactly once, synchronously within the call itself, as
the only event of the trace, and no fade tick and no timer pause is
scheduled. -/
theorem progressive_fade_no_children (timeout : ℚ) :
    progTrace timeout [] = [PEvent.callbackFired] ∧
    countCallbacks (progTrace timeout []) = 1 ∧
    totalPauseDelay (progTrace timeout []) = 0 := by
  have h : progTrace timeout [] = [PEvent.callbackFired] := by
    rw [progTrace, fadeInRecursiveTrace]
    simp
  refine ⟨h, by rw [h]; rfl, by rw [h]; simp [totalPauseDelay, pauseDelay]⟩

theorem length_removeDiv (state : List (List Nat)) (j : Nat) :
    (removeDiv state j).length = state.length := by
  simp [removeDiv]

theorem length_appendDiv (state : List (List Nat)) (i j : Nat) :
    (appendDiv state i j).length = state.length := by
  simp [appendDiv]

theorem getD_last_append (u : List (List Nat)) (v : List Nat) :
    (u ++ [v]).getD u.length [] = v := by
  induction u with
  | nil => rfl
  | cons a u ih =>
      rw [List.cons_append, List.length_cons, List.getD_cons_succ]
      exact ih

theorem set_last_append (u : List (List Nat)) (v w : List Nat) :
    (u ++ [v]).set u.length w = u ++ [w] := by
  induction u with
  | nil => rfl
  | cons a u ih =>
      rw [List.cons_append, List.length_cons, List.set_cons_succ,
        ih, List.cons_append]

theorem set_getD_self (l : List (List Nat)) (i : Nat) (h : i < l.length) :
    l.set i (l.getD i []) = l := by
  induction l generalizing i with
  | nil => cases h
  | cons a l ih =>
      cases i with
      | zero => rfl
      | succ i =>
          have := ih i (by simpa using Nat.lt_of_succ_lt_succ h)
          simpa [List.getD] using this

theorem getD_set_self' (l : List (List Nat)) (k : Nat) (c : List Nat)
    (h : k < l.length) : (l.set k c).getD k [] = c := by
  simp [List.getD, List.getElem?_set_self, h]

theorem getD_removeDiv (state : List (List Nat)) (j : Nat) (i : Nat)
    (h : i < state.length) :
    (removeDiv state j).getD i [] =
      (state.getD i []).filter (fun x => x != j) := by
  simp [removeDiv, List.getD, List.getElem?_map, List.getElem?_eq_getElem h]

theorem filter_bne_filter_contains (j : Nat) (js row : List Nat) :
    (row.filter (fun x => x != j)).filter (fun x => !js.contains x) =
      row.filter (fun x => !(j :: js).contains x) := by
  rw [List.filter_filter]
  apply List.filter_congr
  intro x _
  by_cases h1 : x = j
  · simp [h1, List.contains_cons]
  · by_cases h2 : x ∈ js
    · simp [h1, h2, List.contains_cons]
    · simp [h1, h2, List.contains_cons]

theorem fillRow_spec (i : Nat) :
    ∀ (js : List Nat), js.Nodup → ∀ (state : List (List Nat)),
      i < state.length →
      fillRow state i js =
        (state.map (fun row => row.filter (fun x => !js.contains x))).set i
          (((state.getD i []).filter (fun x => !js.contains x)) ++ js) := by
  intro js
  induction js with
  | nil =>
      intro _ state hi
      rw [fillRow]
      have h1 : (state.map fun row =>
          row.filter (fun x => !([] : List Nat).contains x)) = state := by
        have : ∀ row : List Nat,
            row.filter (fun x => !([] : List Nat).contains x) = row := by
          intro row
          apply List.filter_eq_self.mpr
          intro a _
          rfl
        simp [this]
      rw [h1]
      have h2 : ((state.getD i []).filter
          (fun x => !([] : List Nat).contains x)) ++ [] = state.getD i [] := by
        have : (state.getD i []).filter
            (fun x => !([] : List Nat).contains x) = state.getD i [] := by
          apply List.filter_eq_self.mpr
          intro a _
          rfl
        simp [this]
      rw [h2, set_getD_self state i hi]
  | cons j js ih =>
      intro hnd state hi
      obtain ⟨hj_not_mem, hnd'⟩ := List.nodup_cons.mp hnd
      rw [fillRow]
      have hlen' : i < (appendDiv (removeDiv state j) i j).length := by
        rw [length_appendDiv, length_removeDiv]
        exact hi
      rw [ih hnd' _ hlen']
      have hAlen : i < (removeDiv state j).length := by
        rw [length_removeDiv]; exact hi
      have hmap : (appendDiv (removeDiv state j) i j).map
            (fun row => row.filter (fun x => !js.contains x)) =
          ((removeDiv state j).map
            (fun row => row.filter (fun x => !js.contains x))).set i
            (((removeDiv state j).getD i [] ++ [j]).filter
              (fun x => !js.contains x)) := by
        rw [appendDiv, List.map_set]
      have hmapA : (removeDiv state j).map
            (fun row => row.filter (fun x => !js.contains x)) =
          state.map (fun row => row.filter (fun x => !((j :: js).contains x))) := by
        rw [removeDiv, List.map_map]
        apply List.map_congr_left
        intro row _
        exact filter_bne_filter_contains j js row
      have hgetD : (appendDiv (removeDiv state j) i j).getD i [] =
          (removeDiv state j).getD i [] ++ [j] := by
        rw [appendDiv, getD_set_self' _ _ _ hAlen]
      have hcj : js.contains j = false := by
        simp [hj_not_mem]
      have hval : (((appendDiv (removeDiv state j) i j).getD i []).filter
            (fun x => !js.contains x)) ++ js =
          ((state.getD i []).filter (fun x => !((j :: js).contains x))) ++
            (j :: js) := by
        rw [hgetD, List.filter_append, getD_removeDiv state j i hi,
          filter_bne_filter_contains]
        simp [List.filter_cons, hj_not_mem]
      rw [hmap, hmapA, List.set_set, hval]

theorem openState_length (N k i : Nat) (h : 1 ≤ i) :
    (openState N k i).length = i := by
  simp [openState]
  omega

theorem filter_range'_all_lt (a n : Nat) (jsa jsn : Nat)
    (hbound : a + n ≤ jsa) :
    (List.range' a n).filter (fun x => !(List.range' jsa jsn).contains x) =
      List.range' a n := by
  apply List.filter_eq_self.mpr
  intro x hx
  have hx' := List.mem_range'_1.mp hx
  have : x ∉ List.range' jsa jsn := by
    intro hmem
    have := List.mem_range'_1.mp hmem
    omega
  simp [this]

theorem filter_range'_all_in (a n : Nat) :
    (List.range' a n).filter (fun x => !(List.range' a n).contains x) = [] := by
  apply List.filter_eq_nil_iff.mpr
  intro x hx
  simp [hx]

theorem map_filter_closed (k i N : Nat) (l : List Nat)
    (hall : ∀ t ∈ l, t * k + k ≤ i * k) :
    ((l.map (closedChunk k)).map
      (fun row : List Nat => row.filter
        (fun x => !(List.range' (i * k) (N - i * k)).contains x))) =
      l.map (closedChunk k) := by
  induction l with
  | nil => rfl
  | cons t l ih =>
      simp only [List.map_cons]
      rw [ih (fun a ha => hall a (List.mem_cons_of_mem _ ha))]
      congr 1
      rw [closedChunk]
      exact filter_range'_all_lt _ _ _ _ (hall t (List.mem_cons_self t l))

/-- Moving divs i*k .. N-1 into the fresh row i turns the loop state of
iteration i into the loop state of iteration i+1. -/
theorem fillRow_openState (N k i : Nat) (h1 : 1 ≤ i)
    (hg : i * k < N) (e1 : (i - 1) * k + k = i * k) :
    fillRow (openState N k i ++ [[]]) i (List.range' (i * k) (N - i * k)) =
      openState N k (i + 1) := by
  have hnd : (List.range' (i * k) (N - i * k)).Nodup :=
    List.nodup_range' _ _
  have hslen : (openState N k i ++ [[]]).length = i + 1 := by
    simp [openState_length N k i h1]
  rw [fillRow_spec i _ hnd _ (by omega)]
  have hulen : (openState N k i).length = i := openState_length N k i h1
  have hgetD : (openState N k i ++ [[]]).getD i [] = [] := by
    have h := getD_last_append (openState N k i) []
    rwa [hulen] at h
  have hmap : (openState N k i ++ [[]]).map
        (fun row : List Nat => row.filter
          (fun x => !(List.range' (i * k) (N - i * k)).contains x)) =
      ((List.range (i - 1)).map (closedChunk k) ++
        [List.range' ((i - 1) * k) k]) ++ [[]] := by
    rw [openState, List.map_append, List.map_append]
    congr 1
    · congr 1
      · apply map_filter_closed
        intro t ht
        have htlt : t < i - 1 := List.mem_range.mp ht
        have e2 : t * k + k = (t + 1) * k := by ring
        have e3 : (t + 1) * k ≤ (i - 1) * k :=
          Nat.mul_le_mul_right k (by omega)
        have e4 : (i - 1) * k ≤ i * k := Nat.mul_le_mul_right k (by omega)
        omega
      · simp only [List.map_cons, List.map_nil]
        congr 1
        have hsplit : List.range' ((i - 1) * k) (N - (i - 1) * k) =
            List.range' ((i - 1) * k) k ++
              List.range' (i * k) (N - i * k) := by
          have := List.range'_append ((i - 1) * k) k (N - i * k) 1
          rw [show (i - 1) * k + 1 * k = i * k by omega] at this
          rw [show N - i * k + k = N - (i - 1) * k by omega] at this
          exact this.symm
        rw [hsplit, List.filter_append,
          filter_range'_all_lt _ _ _ _ (by omega),
          filter_range'_all_in]
        simp
  rw [hmap, hgetD]
  have hwlen : ((List.range (i - 1)).map (closedChunk k) ++
      [List.range' ((i - 1) * k) k]).length = i := by
    simp
    omega
  have hset := set_last_append ((List.range (i - 1)).map (closedChunk k) ++
    [List.range' ((i - 1) * k) k]) ([] : List Nat)
    (([] : List Nat).filter
      (fun x => !(List.range' (i * k) (N - i * k)).contains x) ++
      List.range' (i * k) (N - i * k))
  rw [hwlen] at hset
  rw [hset]
  rw [openState]
  have hi1 : i + 1 - 1 = i := by omega
  rw [hi1]
  have hrange : List.range i = List.range (i - 1) ++ [i - 1] := by
    have : i = (i - 1) + 1 := by omega
    rw [this, List.range_succ]
    simp
  rw [hrange, List.map_append]
  simp [closedChunk]

/-- When the loop guard fails, the loop state is exactly the final
partition into ceil(N/k) pages. -/
theorem openState_terminal (N k i : Nat) (hk : 1 ≤ k) (h1 : 1 ≤ i)
    (hg : ¬ i * k < N) (h2 : (i - 1) * k < N) :
    openState N k i = (List.range ((N + k - 1) / k)).map (pageChunk N k) := by
  obtain ⟨m, rfl⟩ : ∃ m, i = m + 1 := ⟨i - 1, by omega⟩
  have hm : m + 1 - 1 = m := by omega
  rw [hm] at h2
  have e1 : (m + 1) * k = m * k + k := by ring
  have hR : (N + k - 1) / k = m + 1 := by
    apply Nat.div_eq_of_lt_le
    · omega
    · have e2 : (m + 1 + 1) * k = m * k + k + k := by ring
      omega
  rw [hR, openState]
  simp only [Nat.add_sub_cancel]
  rw [List.range_succ, List.map_append]
  congr 1
  · apply List.map_congr_left
    intro t ht
    have htlt : t < m := List.mem_range.mp ht
    have e2 : (t + 1) * k = t * k + k := by ring
    have e3 : (t + 1) * k ≤ m * k := Nat.mul_le_mul_right k (by omega)
    rw [closedChunk, pageChunk]
    congr 1
    omega
  · simp only [List.map_cons, List.map_nil]
    congr 1
    rw [pageChunk]
    congr 1
    omega

/-- The loop invariant carried from iteration i to the end of the loop. -/
theorem buildLoop_inv (N kk : Nat) :
    ∀ (d i : Nat), N - i = d → 1 ≤ i → (i - 1) * (kk + 1) < N →
      buildLoop N kk i (openState N (kk + 1) i) =
        (List.range ((N + (kk + 1) - 1) / (kk + 1))).map
          (pageChunk N (kk + 1)) := by
  intro d
  induction d with
  | zero =>
      intro i hd h1 h2
      have hg : ¬ i * (kk + 1) < N := by
        have : i ≤ i * (kk + 1) := Nat.le_mul_of_pos_right i (Nat.succ_pos kk)
        omega
      rw [buildLoop, if_neg hg]
      exact openState_terminal N (kk + 1) i (by omega) h1 hg h2
  | succ d ihd =>
      intro i hd h1 h2
      by_cases hg : i * (kk + 1) < N
      · rw [buildLoop, if_pos hg]
        have e1 : (i - 1) * (kk + 1) + (kk + 1) = i * (kk + 1) := by
          obtain ⟨m, rfl⟩ : ∃ m, i = m + 1 := ⟨i - 1, by omega⟩
          simp only [Nat.add_sub_cancel]
          ring
        rw [fillRow_openState N (kk + 1) i h1 hg e1]
        have hiN : i < N := by
          have : i ≤ i * (kk + 1) := Nat.le_mul_of_pos_right i (Nat.succ_pos kk)
          omega
        apply ihd (i + 1) (by omega) (by omega)
        simpa using hg
      · rw [buildLoop, if_neg hg]
        exact openState_terminal N (kk + 1) i (by omega) h1 hg h2

/-- The constructed slideshow is the order-preserving chunk partition. -/
theorem slideshowPages_eq (N k : Nat) (hk : 1 ≤ k) :
    slideshowPages N k = (List.range ((N + k - 1) / k)).map (pageChunk N k) := by
  obtain ⟨kk, rfl⟩ : ∃ kk, k = kk + 1 := ⟨k - 1, by omega⟩
  rw [slideshowPages]
  simp only [Nat.add_sub_cancel]
  by_cases hN : 0 < N
  · rw [buildLoop, if_pos (by simpa using hN)]
    have hfill : fillRow ([] ++ [[]]) 0
        (List.range' (0 * (kk + 1)) (N - 0 * (kk + 1))) =
        openState N (kk + 1) 1 := by
      have hnd : (List.range' (0 * (kk + 1)) (N - 0 * (kk + 1))).Nodup :=
        List.nodup_range' _ _
      rw [fillRow_spec 0 _ hnd _ (by simp)]
      simp [openState]
    rw [hfill]
    exact buildLoop_inv N kk (N - 1) 1 rfl (by omega) (by simpa using hN)
  · have hN0 : N = 0 := by omega
    subst hN0
    rw [buildLoop, if_neg (by omega)]
    have : (0 + (kk + 1) - 1) / (kk + 1) = 0 :=
      Nat.div_eq_of_lt (by omega)
    rw [this]
    simp

theorem flatten_chunks (N k : Nat) (hk : 1 ≤ k) :
    ∀ R, ((List.range R).map (pageChunk N k)).flatten =
      List.range' 0 (min (R * k) N) := by
  intro R
  induction R with
  | zero => simp
  | succ R ih =>
      rw [List.range_succ, List.map_append, List.flatten_append, ih]
      simp only [List.map_cons, List.map_nil, List.flatten_cons,
        List.flatten_nil, List.append_nil]
      rw [pageChunk]
      by_cases hc : R * k < N
      · have e1 : min (R * k) N = R * k := by omega
        have e3 : (R + 1) * k = R * k + k := by ring
        rw [e1]
        have happ := List.range'_append 0 (R * k) (min k (N - R * k)) 1
        rw [show 0 + 1 * (R * k) = R * k by omega] at happ
        rw [happ]
        congr 1
        omega
      · have e1 : min (R * k) N = N := by omega
        have e2 : min k (N - R * k) = 0 := by omega
        have e3 : (R + 1) * k = R * k + k := by ring
        rw [e1, e2]
        simp
        omega

/-- C3: for every content sequence of length N and every pageSize
k >= 1, after construction finishes the slideshow has exactly
ceil(N/k) page rows; the content elements residing in page i are
exactly the input elements with indices i*k through
min ((i+1)*k) N - 1 in their original order (so every page holds k
elements except possibly the last), and the in-order concatenation of
all pages' content equals the original sequence. This holds even
though the row-filling while loop appends every remaining div to each
row, because appendChild moves nodes, so each div remains in the last
row that appended it. -/
theorem slideshow_partition (N k : Nat) (hk : 1 ≤ k) :
    (slideshowPages N k).length = (N + k - 1) / k ∧
    (∀ i (h : i < (slideshowPages N k).length),
      (slideshowPages N k).get ⟨i, h⟩ =
        List.range' (i * k) (min k (N - i * k))) ∧
    (slideshowPages N k).flatten = List.range N := by
  have heq := slideshowPages_eq N k hk
  refine ⟨by rw [heq]; simp, ?_, ?_⟩
  · intro i h
    rw [List.get_eq_getElem, List.getElem_of_eq heq h]
    have h' : i < (List.range ((N + k - 1) / k)).length := by
      have := h
      rw [heq] at this
      simpa using this
    rw [List.getElem_map, List.getElem_range]
    rfl
  · rw [heq, flatten_chunks N k hk]
    have h1 := Nat.div_add_mod (N + k - 1) k
    have h2 : (N + k - 1) % k < k := Nat.mod_lt _ (by omega)
    have h3 : ((N + k - 1) / k) * k = k * ((N + k - 1) / k) := by ring
    have h4 : N ≤ ((N + k - 1) / k) * k := by
      rw [h3]
      omega
    rw [show min (((N + k - 1) / k) * k) N = N by omega]
    exact (List.range_eq_range' N).symm

theorem getD_set_eq {α : Type} (l : List α) (k : Nat) (c d : α)
    (h : k < l.length) : (l.set k c).getD k d = c := by
  simp [List.getD, List.getElem?_set_self, h]

theorem getD_set_ne {α : Type} (l : List α) (k j : Nat) (c d : α)
    (h : k ≠ j) : (l.set k c).getD j d = l.getD j d := by
  simp [List.getD, List.getElem?_set_ne h]

theorem getD_ge_length {α : Type} (l : List α) (i : Nat) (d : α)
    (h : l.length ≤ i) : l.getD i d = d := by
  simp [List.getD, List.getElem?_eq_none h]

theorem navTarget_false (r : Nat) : navTarget r false = r - 1 := rfl

theorem navTarget_true (r : Nat) : navTarget r true = r + 1 := rfl

theorem count_true_set (l : List Bool) :
    ∀ (r : Nat), r < l.length → ∀ (b : Bool),
      (l.set r b).count true + (if l.getD r false = true then 1 else 0) =
        l.count true + (if b = true then 1 else 0) := by
  induction l with
  | nil => intro r hr; cases hr
  | cons a l ih =>
      intro r hr b
      cases r with
      | zero =>
          simp only [List.set_cons_zero, List.count_cons, List.getD_cons_zero]
          cases a <;> cases b <;> simp
      | succ r =>
          have hlen : r < l.length := by simpa using Nat.lt_of_succ_lt_succ hr
          have := ih r hlen b
          simp only [List.set_cons_succ, List.count_cons, List.getD_cons_succ]
          omega

theorem getD_false_of_count_zero (l : List Bool) :
    ∀ (t : Nat), l.count true = 0 → l.getD t false = false := by
  induction l with
  | nil => intro t _; cases t <;> rfl
  | cons a l ih =>
      intro t hc
      cases t with
      | zero =>
          cases a
          · rfl
          · rw [List.count_cons] at hc
            simp at hc
      | succ t =>
          rw [List.count_cons] at hc
          simp only [List.getD_cons_succ]
          exact ih t (by omega)

theorem slideInit_count (n : Nat) (hn : 1 ≤ n) :
    (slideInit n).display.count true = 1 := by
  obtain ⟨m, rfl⟩ : ∃ m, n = m + 1 := ⟨n - 1, by omega⟩
  rw [slideInit]
  simp only
  rw [List.range_succ_eq_map, List.map_cons, List.map_map, List.count_cons]
  have hz : ∀ l : List Nat,
      ((l.map (fun i => (Nat.succ i == 0))).count true) = 0 := by
    intro l
    induction l with
    | nil => rfl
    | cons a l ihl => simpa [List.count_cons] using ihl
  have hcomp : ((fun i => i == 0) ∘ Nat.succ) = fun i => (Nat.succ i == 0) := rfl
  rw [hcomp, hz]
  decide

theorem slideInit_display_head (n : Nat) (hn : 1 ≤ n) :
    (slideInit n).display.getD 0 false = true := by
  obtain ⟨m, rfl⟩ : ∃ m, n = m + 1 := ⟨n - 1, by omega⟩
  rw [slideInit]
  simp only
  rw [List.range_succ_eq_map]
  rfl

theorem slideStep_click_preserves (n : Nat) (s s' : SlideState) (i : Nat)
    (right : Bool) (hf : s.fades = []) (hinv : SlideInv n s)
    (hstep : slideStep n s (SlideEv.clickNav i right) = some s') :
    SlideInv n s' := by
  obtain ⟨hdl, hol, hcount, _⟩ := hinv
  rw [slideStep] at hstep
  by_cases hguard : (s.display.getD i false) = true ∧
      (if right then i + 1 < n else 0 < i)
  · rw [if_pos hguard] at hstep
    cases hstep
    obtain ⟨hdisp, henb⟩ := hguard
    refine ⟨hdl, by simpa using hol, hcount,
      Or.inr ⟨i, right, ?_, hdisp, ?_, ?_⟩⟩
    · dsimp only
      rw [hf]
      rfl
    · intro hr
      rw [hr] at henb
      simpa using henb
    · intro hr
      rw [hr] at henb
      simp at henb
      have hi_lt : i < n := by
        by_cases h : i < s.display.length
        · omega
        · rw [getD_ge_length _ _ _ (by omega)] at hdisp
          cases hdisp
      exact ⟨henb, hi_lt⟩
  · rw [if_neg hguard] at hstep
    cases hstep

theorem slideStep_tick_preserves (n : Nat) (s s' : SlideState) (t : Nat)
    (hinv : SlideInv n s)
    (hstep : slideStep n s (SlideEv.tick t) = some s') : SlideInv n s' := by
  obtain ⟨hdl, hol, hcount, hfades⟩ := hinv
  rw [slideStep] at hstep
  rcases hfades with hf | ⟨r, right, hf, hdisp, hr1, hr0⟩
  · rw [hf] at hstep
    simp at hstep
  · rw [hf] at hstep
    cases t with
    | succ t' => simp at hstep
    | zero =>
        simp only [List.getElem?_cons_zero] at hstep
        have hrn : r < n := by
          cases right
          · exact (hr0 rfl).2
          · have := hr1 rfl; omega
        have htgt : navTarget r right < n := by
          cases right
          · have := hr0 rfl
            rw [navTarget_false]
            omega
          · have := hr1 rfl
            rw [navTarget_true]
            omega
        have hne : r ≠ navTarget r right := by
          cases right
          · have := hr0 rfl
            rw [navTarget_false]
            omega
          · rw [navTarget_true]
            omega
        by_cases hlt : ((s.opacity.getD r none).getD 1) - 1 / 10 < 0
        · rw [if_pos hlt] at hstep
          cases hstep
          refine ⟨by simpa using hdl, by simpa using hol, ?_, Or.inl ?_⟩
          · dsimp only
            have h1 := count_true_set s.display r (by omega) false
            rw [hdisp] at h1
            have h1' : (s.display.set r false).count true + 1 =
                s.display.count true := by
              simpa using h1
            have hc1 : (s.display.set r false).count true = 0 := by omega
            have h2 := count_true_set (s.display.set r false) (navTarget r right)
              (by rw [List.length_set]; omega) true
            rw [getD_false_of_count_zero _ _ hc1] at h2
            have h2' : ((s.display.set r false).set (navTarget r right)
                true).count true = (s.display.set r false).count true + 1 := by
              simpa using h2
            omega
          · dsimp only
            rfl
        · rw [if_neg hlt] at hstep
          cases hstep
          exact ⟨hdl, by simpa using hol, hcount,
            Or.inr ⟨r, right, rfl, hdisp, hr1, hr0⟩⟩

theorem GoodReach_inv (n : Nat) (hn : 1 ≤ n) :
    ∀ s, GoodReach n s → SlideInv n s := by
  intro s h
  induction h with
  | init =>
      exact ⟨by simp [slideInit], by simp [slideInit],
        slideInit_count n hn, Or.inl rfl⟩
  | click s s' i right hr hfades hstep ih =>
      exact slideStep_click_preserves n s s' i right hfades ih hstep
  | tick s s' t hr hstep ih =>
      exact slideStep_tick_preserves n s s' t ih hstep

/-- C8 (amended): for every slideshow with n >= 1 rows, provided no
navigation click is delivered while a fade is in flight, at every
scheduler-observable point exactly one page row has display not equal
to none; immediately after construction that row is page 0; and a
transition's completing tick (the one that empties the in-flight fade
list) hides the outgoing row and shows the adjacent row at opacity 1.0
within that single continuation. Without the no-overlap proviso the
property fails, as the counterexample shows. -/
theorem slideshow_one_visible (n : Nat) (hn : 1 ≤ n) (s : SlideState)
    (h : GoodReach n s) :
    s.display.count true = 1 ∧
    (slideInit n).display.getD 0 false = true ∧
    (∀ r right s', s.fades = [(r, right)] →
      slideStep n s (SlideEv.tick 0) = some s' → s'.fades = [] →
      s'.display.getD r false = false ∧
      s'.display.getD (navTarget r right) false = true ∧
      s'.opacity.getD (navTarget r right) none = some 1) := by
  obtain ⟨hdl, hol, hcount, hfades⟩ := GoodReach_inv n hn s h
  refine ⟨hcount, slideInit_display_head n hn, ?_⟩
  intro r right s' hfr hstep hdone
  rw [slideStep, hfr] at hstep
  simp only [List.getElem?_cons_zero] at hstep
  rcases hfades with hf | ⟨r0, right0, hf, hdisp, hr1, hr0⟩
  · rw [hf] at hfr; cases hfr
  · rw [hf] at hfr
    injection hfr with h1 h2
    injection h1 with h3 h4
    subst h3
    subst h4
    have hrn : r0 < n := by
      cases right0
      · exact (hr0 rfl).2
      · have := hr1 rfl; omega
    have htgt : navTarget r0 right0 < n := by
      cases right0
      · have := hr0 rfl
        rw [navTarget_false]
        omega
      · have := hr1 rfl
        rw [navTarget_true]
        omega
    have hne : r0 ≠ navTarget r0 right0 := by
      cases right0
      · have := hr0 rfl
        rw [navTarget_false]
        omega
      · rw [navTarget_true]
        omega
    by_cases hlt : ((s.opacity.getD r0 none).getD 1) - 1 / 10 < 0
    · rw [if_pos hlt] at hstep
      cases hstep
      refine ⟨?_, ?_, ?_⟩
      · dsimp only
        rw [getD_set_ne _ _ _ _ _ (fun hc => hne hc.symm),
          getD_set_eq _ _ _ _ (by omega)]
      · dsimp only
        rw [getD_set_eq _ _ _ _ (by rw [List.length_set]; omega)]
      · dsimp only
        rw [getD_set_eq _ _ _ _ (by rw [List.length_set]; omega)]
    · rw [if_neg hlt] at hstep
      cases hstep
      cases hdone

/-- C8 witness: the amended theorem applied to a freshly constructed
three-row slideshow (the good-reachable initial state). -/
theorem slideshow_one_visible_witness :
    (slideInit 3).display.count true = 1 ∧
    (slideInit 3).display.getD 0 false = true ∧
    (∀ r right s', (slideInit 3).fades = [(r, right)] →
      slideStep 3 (slideInit 3) (SlideEv.tick 0) = some s' → s'.fades = [] →
      s'.display.getD r false = false ∧
      s'.display.getD (navTarget r right) false = true ∧
      s'.opacity.getD (navTarget r right) none = some 1) :=
  slideshow_one_visible 3 (by norm_num) (slideInit 3) GoodReach.init

/-- C8 counterexample: on a three-row slideshow, navigating to row 1
and then clicking right and left on row 1 before the first fade
finishes (the source does not debounce clicks during an in-flight
fade) ends with rows 0 and 2 both displayed: two rows visible at a
scheduler-observable point, refuting the claim as stated. -/
theorem slideshow_two_visible_counterexample :
    runSlide 3 (slideInit 3) overlappingClicks =
      some ⟨[true, false, true], [some 1, some 0, some 1], []⟩ ∧
    ¬ (([true, false, true] : List Bool).count true = 1) := by
  constructor
  · norm_num [overlappingClicks, runSlide, slideStep, slideInit, navTarget,
      List.replicate, List.getD, List.range, List.range.loop]
  · decide

/-- C3 witness: the partition theorem applied at N = 7, k = 3, the
spec's own scenario with pages of sizes 3, 3, 1. -/
theorem slideshow_partition_witness :
    (slideshowPages 7 3).length = (7 + 3 - 1) / 3 ∧
    (∀ i (h : i < (slideshowPages 7 3).length),
      (slideshowPages 7 3).get ⟨i, h⟩ =
        List.range' (i * 3) (min 3 (7 - i * 3))) ∧
    (slideshowPages 7 3).flatten = List.range 7 :=
  slideshow_partition 7 3 (by norm_num)

end Plawser
